import Mathlib

/-!
Shallow embedding of the inversebias bias-aggregation pipeline
(`src/inversebias/ml.py`, `src/inversebias/data/utils.py`,
`src/inversebias/data/db.py`) and proofs about it.

DataFrames are modelled as lists of rows (structures with one field per
column used by the code under verification); pandas operations become list
operations.  Missing values (NaN) are modelled with `Option`.  The float
bias threshold is modelled as a rational number.
-/

namespace InverseBias

/-! ### Generic list helpers (pandas primitives) -/

/-- Model of `drop_duplicates(subset=[key], keep="first")`: keep the first
row for every key value.  The `seen` accumulator holds key values already
emitted. -/
def dedupByKeyAux {α β : Type} [DecidableEq β] (key : α → β) (seen : List β) :
    List α → List α
  | [] => []
  | a :: t =>
    if key a ∈ seen then dedupByKeyAux key seen t
    else a :: dedupByKeyAux key (key a :: seen) t

/-- Model of `drop_duplicates(subset=[key], keep="first")`. -/
def dedupByKey {α β : Type} [DecidableEq β] (key : α → β) (l : List α) : List α :=
  dedupByKeyAux key [] l

/-- First-occurrence list of distinct values (the index of a pandas groupby). -/
def dedupFirst {β : Type} [DecidableEq β] (l : List β) : List β :=
  dedupByKey id l

/-- First value associated to a key in an association list (a pandas left
merge against a right table whose keys are unique). -/
def lookupKey {β γ : Type} [DecidableEq β] (k : β) : List (β × γ) → Option γ
  | [] => none
  | (k2, v) :: t => if k2 = k then some v else lookupKey k t

theorem mem_of_mem_dedupByKeyAux {α β : Type} [DecidableEq β] (key : α → β)
    (seen : List β) (l : List α) (x : α) (h : x ∈ dedupByKeyAux key seen l) :
    x ∈ l := by
  induction l generalizing seen with
  | nil => simp [dedupByKeyAux] at h
  | cons a t ih =>
    by_cases hk : key a ∈ seen
    · rw [dedupByKeyAux, if_pos hk] at h
      exact List.mem_cons_of_mem _ (ih _ h)
    · rw [dedupByKeyAux, if_neg hk, List.mem_cons] at h
      rcases h with h | h
      · exact h ▸ List.mem_cons_self a t
      · exact List.mem_cons_of_mem _ (ih _ h)

theorem mem_of_mem_dedupByKey {α β : Type} [DecidableEq β] (key : α → β)
    (l : List α) (x : α) (h : x ∈ dedupByKey key l) : x ∈ l :=
  mem_of_mem_dedupByKeyAux key [] l x h

theorem key_mem_dedupByKeyAux {α β : Type} [DecidableEq β] (key : α → β)
    (seen : List β) (l : List α) (k : β) (hk : k ∈ l.map key) (hs : k ∉ seen) :
    k ∈ (dedupByKeyAux key seen l).map key := by
  induction l generalizing seen with
  | nil => simp at hk
  | cons a t ih =>
    rw [List.map_cons, List.mem_cons] at hk
    by_cases hmem : key a ∈ seen
    · rw [dedupByKeyAux, if_pos hmem]
      rcases hk with h | h
      · exact absurd (h ▸ hmem) hs
      · exact ih seen h hs
    · rw [dedupByKeyAux, if_neg hmem, List.map_cons, List.mem_cons]
      by_cases hka : k = key a
      · exact Or.inl hka
      · rcases hk with h | h
        · exact absurd h hka
        · exact Or.inr (ih (key a :: seen) h
            (by simp only [List.mem_cons, not_or]; exact ⟨hka, hs⟩))

theorem key_mem_dedupByKey {α β : Type} [DecidableEq β] (key : α → β)
    (l : List α) (k : β) (hk : k ∈ l.map key) :
    k ∈ (dedupByKey key l).map key :=
  key_mem_dedupByKeyAux key [] l k hk (by simp)

theorem dedupByKeyAux_keys_nodup {α β : Type} [DecidableEq β] (key : α → β)
    (seen : List β) (l : List α) :
    ((dedupByKeyAux key seen l).map key).Nodup ∧
      ∀ k ∈ (dedupByKeyAux key seen l).map key, k ∉ seen := by
  induction l generalizing seen with
  | nil => simp [dedupByKeyAux]
  | cons a t ih =>
    by_cases hmem : key a ∈ seen
    · rw [dedupByKeyAux, if_pos hmem]
      exact ih seen
    · have ih2 := ih (key a :: seen)
      rw [dedupByKeyAux, if_neg hmem]
      refine ⟨?_, ?_⟩
      · rw [List.map_cons, List.nodup_cons]
        refine ⟨fun hc => ?_, ih2.1⟩
        exact (ih2.2 _ hc) (List.mem_cons_self _ _)
      · intro k hk
        rw [List.map_cons, List.mem_cons] at hk
        rcases hk with hk | hk
        · exact hk ▸ hmem
        · exact fun hs => (ih2.2 _ hk) (List.mem_cons_of_mem _ hs)

theorem dedupByKey_keys_nodup {α β : Type} [DecidableEq β] (key : α → β)
    (l : List α) : ((dedupByKey key l).map key).Nodup :=
  (dedupByKeyAux_keys_nodup key [] l).1

theorem mem_dedupFirst {β : Type} [DecidableEq β] (l : List β) (k : β) :
    k ∈ dedupFirst l ↔ k ∈ l := by
  constructor
  · exact mem_of_mem_dedupByKey id l k
  · intro h
    have := key_mem_dedupByKey id l k (by simpa using h)
    simpa using this

theorem lookupKey_map_keys {β γ : Type} [DecidableEq β] (keys : List β)
    (f : β → γ) (k : β) :
    lookupKey k (keys.map fun x => (x, f x)) =
      if k ∈ keys then some (f k) else none := by
  induction keys with
  | nil => simp [lookupKey]
  | cons a t ih =>
    by_cases hak : a = k
    · subst hak
      simp [lookupKey]
    · simp [lookupKey, hak, ih, Ne.symm hak]

/-! ### Python string primitives

The Python code uses `str.lower()`, `str.split(sep)`, `str.strip()` and the
substring test `in`.  Lean's own `String` functions do not reduce inside the
kernel, so these are re-implemented over `List Char` (titles and labels in
this repository are ASCII, where `Char.toLower` agrees with Python
`str.lower`). -/

/-- Python `str.lower()`. -/
def pyLower (s : String) : String :=
  ⟨s.data.map Char.toLower⟩

/-- Python whitespace test used by `str.strip()`. -/
def pySpace (c : Char) : Bool :=
  c = ' ' || c = '\t' || c = '\n' || c = '\r'

/-- Python `str.strip()`. -/
def pyStrip (s : String) : String :=
  ⟨((s.data.dropWhile pySpace).reverse.dropWhile pySpace).reverse⟩

/-- Strip `sep` from the front of `l`, if it is there. -/
def stripSepAt : List Char → List Char → Option (List Char)
  | [], l => some l
  | _ :: _, [] => none
  | a :: as, b :: bs => if a = b then stripSepAt as bs else none

/-- Text before the first occurrence of `sep`, and the remainder after it
when `sep` occurs. -/
def splitChunk (sep : List Char) : List Char → List Char × Option (List Char)
  | [] => ([], none)
  | c :: t =>
    match stripSepAt sep (c :: t) with
    | some rest => ([], some rest)
    | none =>
      let p := splitChunk sep t
      (c :: p.1, p.2)

/-- Fuelled splitting loop; the fuel is an upper bound on the number of
separator occurrences, so the `0` case is never reached when called with
fuel `length + 1`. -/
def splitLoop (sep : List Char) : Nat → List Char → List (List Char)
  | 0, s => [s]
  | fuel + 1, s =>
    match splitChunk sep s with
    | (pre, none) => [pre]
    | (pre, some rest) => pre :: splitLoop sep fuel rest

/-- Python `s.split(sep)` for a non-empty separator `sep`. -/
def pySplit (sep : String) (s : String) : List String :=
  (splitLoop sep.data (s.data.length + 1) s.data).map fun l => ⟨l⟩

/-- Does `needle` occur at the start of `hay`? -/
def startsWithSeq : List Char → List Char → Bool
  | _, [] => true
  | [], _ :: _ => false
  | a :: as, b :: bs => a = b && startsWithSeq as bs

/-- Python substring test `needle in hay` (contiguous occurrence). -/
def containsSeq : List Char → List Char → Bool
  | [], needle => needle.isEmpty
  | a :: t, needle => startsWithSeq (a :: t) needle || containsSeq t needle

/-- Lexicographic (code-point) comparison of strings as lists of
characters, mirroring how pandas sorts string values. -/
def charListLe : List Char → List Char → Bool
  | [], _ => true
  | _ :: _, [] => false
  | a :: as, b :: bs => if a = b then charListLe as bs else decide (a < b)

/-- First longest element (`np.argmax` over the segment lengths returns the
first maximal index, `ml.py` lines 112-114). -/
def pickLongest : List String → String
  | [] => ""
  | a :: rest =>
    let b := pickLongest rest
    if b.data.length > a.data.length then b else a

/-! ### `groupby_mode` (`src/inversebias/data/utils.py`, lines 38-51) -/

/-- Number of occurrences of a value in a series
(`x.value_counts()[v]`). -/
def countVal (xs : List String) (v : String) : Nat :=
  (xs.filter fun x => x = v).length

/-- The largest occurrence count in a series (`x.value_counts().max()`). -/
def maxCount (xs : List String) : Nat :=
  (xs.map (countVal xs)).foldr max 0

/-- The list of modes of a series: the distinct values attaining the
maximal count (`x.mode()` before sorting). -/
def modeList (xs : List String) : List String :=
  (dedupFirst xs).filter fun v => countVal xs v = maxCount xs

/-- Least string of a list under code-point order; `x.mode()` returns its
values sorted, so `mode_result.iloc[0]` is this least mode. -/
def minMode : List String → Option String
  | [] => none
  | a :: rest =>
    match minMode rest with
    | none => some a
    | some m => some (if charListLe a.data m.data then a else m)

/-- Model of `mode_func` in `groupby_mode` (`utils.py` lines 40-48): the
mode of the series, except that an empty series or a mode whose share
`pcts.max()` is strictly below the threshold yields the sentinel "N/A". -/
def mode_func (thr : ℚ) (xs : List String) : String :=
  if (modeList xs).isEmpty then "N/A"
  else if mkRat (maxCount xs) xs.length < thr then "N/A"
  else (minMode (modeList xs)).getD "N/A"

/-- The configured bias threshold
(`settings.analysis.bias_threshold`, default `2 / 3`). -/
def bias_threshold : ℚ := mkRat 2 3

/-! ### Facts about the mode computation -/

theorem le_foldr_max {l : List Nat} {a b : Nat} (h : a ∈ l) :
    a ≤ l.foldr max b := by
  induction l with
  | nil => simp at h
  | cons x t ih =>
    rcases List.mem_cons.mp h with h | h
    · exact h ▸ le_max_left _ _
    · exact le_trans (ih h) (le_max_right _ _)

theorem foldr_max_mem_or (l : List Nat) (b : Nat) :
    l.foldr max b = b ∨ l.foldr max b ∈ l := by
  induction l with
  | nil => exact Or.inl rfl
  | cons x t ih =>
    rcases max_choice x (t.foldr max b) with h | h
    · exact Or.inr (by rw [List.foldr_cons, h]; exact List.mem_cons_self _ _)
    · rcases ih with h2 | h2
      · exact Or.inl (by rw [List.foldr_cons, h, h2])
      · exact Or.inr (by rw [List.foldr_cons, h]; exact List.mem_cons_of_mem _ h2)

theorem countVal_le_maxCount (xs : List String) (v : String) :
    countVal xs v ≤ maxCount xs := by
  by_cases h : v ∈ xs
  · exact le_foldr_max (List.mem_map_of_mem (countVal xs) h)
  · have : xs.filter (fun x => x = v) = [] := by
      apply List.filter_eq_nil_iff.mpr
      intro a ha
      simp only [decide_eq_true_eq]
      exact fun hav => h (hav ▸ ha)
    simp [countVal, this]

theorem countVal_pos_of_mem {xs : List String} {v : String} (h : v ∈ xs) :
    0 < countVal xs v := by
  have : v ∈ xs.filter (fun x => x = v) := List.mem_filter.mpr ⟨h, by simp⟩
  exact List.length_pos.mpr (List.ne_nil_of_mem this)

theorem maxCount_attained {xs : List String} (h : xs ≠ []) :
    ∃ v ∈ xs, countVal xs v = maxCount xs := by
  rcases foldr_max_mem_or (xs.map (countVal xs)) 0 with h0 | hmem
  · rcases List.exists_mem_of_ne_nil xs h with ⟨x, hx⟩
    have h1 : 0 < countVal xs x := countVal_pos_of_mem hx
    have h2 : countVal xs x ≤ maxCount xs := countVal_le_maxCount xs x
    rw [maxCount, h0] at h2
    omega
  · rcases List.mem_map.mp hmem with ⟨v, hv, hcv⟩
    exact ⟨v, hv, hcv⟩

theorem mem_modeList {xs : List String} {v : String} (h : v ∈ modeList xs) :
    v ∈ xs ∧ countVal xs v = maxCount xs := by
  rcases List.mem_filter.mp h with ⟨h1, h2⟩
  exact ⟨(mem_dedupFirst xs v).mp h1, by simpa using h2⟩

theorem modeList_ne_nil {xs : List String} (h : xs ≠ []) : modeList xs ≠ [] := by
  rcases maxCount_attained h with ⟨v, hv, hcv⟩
  have : v ∈ modeList xs :=
    List.mem_filter.mpr ⟨(mem_dedupFirst xs v).mpr hv, by simp [hcv]⟩
  exact List.ne_nil_of_mem this

theorem minMode_mem {l : List String} {m : String} (h : minMode l = some m) :
    m ∈ l := by
  induction l with
  | nil => simp [minMode] at h
  | cons a t ih =>
    rw [minMode] at h
    rcases hm : minMode t with _ | m2
    · rw [hm] at h
      simp only [Option.some.injEq] at h
      exact h ▸ List.mem_cons_self _ _
    · rw [hm] at h
      simp only [Option.some.injEq] at h
      by_cases hle : charListLe a.data m2.data
      · rw [if_pos hle] at h
        exact h ▸ List.mem_cons_self _ _
      · rw [if_neg hle] at h
        exact List.mem_cons_of_mem _ (ih (h ▸ hm))

theorem minMode_isSome {l : List String} (h : l ≠ []) :
    ∃ m, minMode l = some m := by
  cases l with
  | nil => exact absurd rfl h
  | cons a t =>
    rw [minMode]
    rcases minMode t with _ | m
    · exact ⟨a, rfl⟩
    · exact ⟨_, rfl⟩

/-- When the series is non-empty and the mode share clears the threshold,
`mode_func` returns an actual mode of the series. -/
theorem mode_func_spec {thr : ℚ} {xs : List String} (hne : xs ≠ [])
    (hth : ¬ mkRat (maxCount xs) xs.length < thr) :
    mode_func thr xs ∈ xs ∧ countVal xs (mode_func thr xs) = maxCount xs := by
  have hml : modeList xs ≠ [] := modeList_ne_nil hne
  rcases minMode_isSome hml with ⟨m, hm⟩
  have hbv : mode_func thr xs = m := by
    rw [mode_func, if_neg (by simpa using hml), if_neg hth, hm, Option.getD_some]
  rw [hbv]
  exact mem_modeList (minMode_mem hm)

theorem binary_length (xs : List String)
    (hbin : ∀ x ∈ xs, x = "positive" ∨ x = "negative") :
    xs.length = countVal xs "positive" + countVal xs "negative" := by
  induction xs with
  | nil => simp [countVal]
  | cons a t ih =>
    have ht := ih fun x hx => hbin x (List.mem_cons_of_mem _ hx)
    rcases hbin a (List.mem_cons_self _ _) with h | h <;> subst h <;>
      simp only [countVal, List.filter_cons, decide_eq_true_eq, List.length_cons] at * <;>
      split <;> simp_all <;> omega

/-- For a binary-valued series whose mode share is at least `2/3`, the mode
is unique. -/
theorem mode_unique (xs : List String)
    (hbin : ∀ x ∈ xs, x = "positive" ∨ x = "negative") (v b : String)
    (hv : v ∈ xs) (hcv : countVal xs v = maxCount xs)
    (hb : b ∈ xs) (hcb : countVal xs b = maxCount xs)
    (hth : ¬ mkRat (maxCount xs) xs.length < bias_threshold) : v = b := by
  by_contra hne
  have hvpn := hbin v hv
  have hbpn := hbin b hb
  have hsum : countVal xs v + countVal xs b =
      countVal xs "positive" + countVal xs "negative" := by
    rcases hvpn with h1 | h1 <;> rcases hbpn with h2 | h2 <;>
      simp_all [Nat.add_comm]
  have hlen : xs.length = 2 * maxCount xs := by
    rw [binary_length xs hbin, ← hsum, hcv, hcb]
    omega
  have hpos : 0 < maxCount xs := hcv ▸ countVal_pos_of_mem hv
  have hmQ : (0 : ℚ) < (maxCount xs : ℚ) := by exact_mod_cast hpos
  have hhalf : mkRat (maxCount xs) xs.length = 1 / 2 := by
    rw [hlen, Rat.mkRat_eq_div]
    push_cast
    rw [div_eq_div_iff (ne_of_gt (by linarith)) (by norm_num)]
    ring
  rw [hhalf] at hth
  apply hth
  rw [show bias_threshold = 2 / 3 by
    rw [bias_threshold, Rat.mkRat_eq_div]; norm_num]
  norm_num

/-! ### Sentiment rows and the grouped mode -/

/-- A row of the `sentiment` table, restricted to the columns that
`build_inverse_bias` and `groupby_mode` read. -/
structure SRow where
  url : String
  source : String
  subject : String
  sentiment : String
deriving DecidableEq, Repr

/-- The grouping key `(source, subject)`. -/
def sKey (s : SRow) : String × String := (s.source, s.subject)

/-- The series of `sentiment` values of one `(source, subject)` group, in
row order. -/
def valuesAt (rows : List SRow) (k : String × String) : List String :=
  (rows.filter fun r => sKey r = k).map SRow.sentiment

/-- Model of `groupby_mode(df, ["source", "subject"], "sentiment")`
(`utils.py` line 51): one output row per group, carrying `mode_func` of the
group's sentiment series.  (pandas sorts the group keys; this model lists
them in first-occurrence order, which no claim depends on.) -/
def groupby_mode (thr : ℚ) (rows : List SRow) :
    List ((String × String) × String) :=
  (dedupFirst (rows.map sKey)).map fun k => (k, mode_func thr (valuesAt rows k))

theorem mem_groupby_mode {thr : ℚ} {rows : List SRow}
    {k : String × String} {b : String} (h : (k, b) ∈ groupby_mode thr rows) :
    b = mode_func thr (valuesAt rows k) := by
  rcases List.mem_map.mp h with ⟨k2, _, hk2⟩
  have h1 : k2 = k := congrArg Prod.fst hk2
  have h2 : mode_func thr (valuesAt rows k2) = b := congrArg Prod.snd hk2
  rw [← h2, h1]

theorem mem_valuesAt_binary {rows : List SRow}
    (hbin : ∀ r ∈ rows, r.sentiment = "positive" ∨ r.sentiment = "negative")
    {k : String × String} {v : String} (hv : v ∈ valuesAt rows k) :
    v = "positive" ∨ v = "negative" := by
  rcases List.mem_map.mp hv with ⟨r, hr, hrv⟩
  exact hrv ▸ hbin r (List.mem_filter.mp hr).1

/-- C1: restricted to sentiments in {positive, negative} and grouped by
(source, subject), each group's bias label is the most frequent sentiment
value of the group, except that it is the sentinel "N/A" when the group is
empty or the mode's share of the group's total count is strictly below the
bias threshold 2/3; a share exactly equal to the threshold asserts the
(then unique) mode. -/
theorem groupby_mode_thresholded_mode (rows : List SRow)
    (hbin : ∀ r ∈ rows, r.sentiment = "positive" ∨ r.sentiment = "negative")
    (k : String × String) (b : String)
    (hmem : (k, b) ∈ groupby_mode bias_threshold rows) :
    ((valuesAt rows k = [] ∨
        mkRat (maxCount (valuesAt rows k)) (valuesAt rows k).length <
          bias_threshold) →
      b = "N/A") ∧
    ((valuesAt rows k ≠ [] ∧
        ¬ mkRat (maxCount (valuesAt rows k)) (valuesAt rows k).length <
          bias_threshold) →
      b ∈ valuesAt rows k ∧
        countVal (valuesAt rows k) b = maxCount (valuesAt rows k) ∧
        ∀ v ∈ valuesAt rows k,
          countVal (valuesAt rows k) v = maxCount (valuesAt rows k) → v = b) := by
  have hb := mem_groupby_mode hmem
  constructor
  · rintro (hE | hlt)
    · rw [hb, mode_func, hE]
      simp [modeList, dedupFirst, dedupByKey, dedupByKeyAux]
    · rw [hb, mode_func]
      by_cases hml : (modeList (valuesAt rows k)).isEmpty
      · rw [if_pos hml]
      · rw [if_neg hml, if_pos hlt]
  · rintro ⟨hne, hth⟩
    have hspec := mode_func_spec hne hth
    rw [← hb] at hspec
    refine ⟨hspec.1, hspec.2, fun v hv hcv => ?_⟩
    exact mode_unique (valuesAt rows k) (fun x hx => mem_valuesAt_binary hbin hx)
      v b hv hcv hspec.1 hspec.2 hth

/-- Concrete group with 2 positive, 1 negative (share = 2/3, exactly the
threshold): the asserted bias is "positive". -/
def c1rows : List SRow :=
  [⟨"u1", "A", "X", "positive"⟩, ⟨"u2", "A", "X", "positive"⟩,
   ⟨"u3", "A", "X", "negative"⟩]

theorem groupby_mode_thresholded_mode_witness :
    "positive" ∈ valuesAt c1rows ("A", "X") ∧
      countVal (valuesAt c1rows ("A", "X")) "positive" =
        maxCount (valuesAt c1rows ("A", "X")) ∧
      ∀ v ∈ valuesAt c1rows ("A", "X"),
        countVal (valuesAt c1rows ("A", "X")) v =
          maxCount (valuesAt c1rows ("A", "X")) → v = "positive" :=
  (groupby_mode_thresholded_mode c1rows (by decide) ("A", "X") "positive"
    (by decide)).2 ⟨by decide, by decide⟩

/-! ### `build_inverse_bias` (`src/inversebias/ml.py`, lines 160-192) -/

/-- A row of the aggregated output frame: the sentiment columns plus the
merged `bias`, `inverse_bias`, `positive` and `negative` columns (all four
nullable, since left merges introduce NaN for missing keys). -/
structure ORow where
  url : String
  source : String
  subject : String
  sentiment : String
  bias : Option String
  inverse_bias : Option String
  positive : Option Nat
  negative : Option Nat
deriving DecidableEq, Repr

/-- The grouping key `(source, subject)` of an output row. -/
def oKey (r : ORow) : String × String := (r.source, r.subject)

/-- The dictionary passed to `.map` on line 175-177:
`{"positive": "negative", "negative": "positive", "N/A": "N/A"}`; any other
value maps to NaN. -/
def inverseMap (b : String) : Option String :=
  if b = "positive" then some "negative"
  else if b = "negative" then some "positive"
  else if b = "N/A" then some "N/A"
  else none

/-- Test `sentiment.isin(["positive", "negative"])`. -/
def binarySent (s : String) : Bool :=
  decide (s = "positive" ∨ s = "negative")

/-- Lines 170-177: left-merge the per-group `bias` label onto a sentiment
row and derive `inverse_bias` from it. -/
def mergeBias (dfBias : List ((String × String) × String)) (s : SRow) : ORow :=
  let b := lookupKey (sKey s) dfBias
  { url := s.url, source := s.source, subject := s.subject,
    sentiment := s.sentiment, bias := b, inverse_bias := b.bind inverseMap,
    positive := none, negative := none }

/-- One cell of the pivot in `get_bias_stats` (lines 135-139): the group's
count for one sentiment column; a zero count is NaN when the column exists
in the pivot (some other group has that sentiment) and is filled with the
literal 0 by `assign` when the whole column is missing. -/
def pivotCell (c : Nat) (colExists : Bool) : Option Nat :=
  if 0 < c then some c else if colExists then none else some 0

/-- Model of `get_bias_stats` (lines 128-142): per (source, subject) group
of the binary-sentiment rows, the positive and negative counts.  (The
`num_news` column is also computed on line 140 but never merged back, so it
is omitted.) -/
def get_bias_stats (rows : List ORow) :
    List ((String × String) × (Option Nat × Option Nat)) :=
  (dedupFirst ((rows.filter fun r => binarySent r.sentiment).map oKey)).map
    fun k =>
      (k,
       (pivotCell
          (((rows.filter fun r => binarySent r.sentiment).filter
            fun r => oKey r = k ∧ r.sentiment = "positive").length)
          ((rows.filter fun r => binarySent r.sentiment).any
            fun r => r.sentiment = "positive"),
        pivotCell
          (((rows.filter fun r => binarySent r.sentiment).filter
            fun r => oKey r = k ∧ r.sentiment = "negative").length)
          ((rows.filter fun r => binarySent r.sentiment).any
            fun r => r.sentiment = "negative")))

/-- Lines 181-185: left-merge the per-group positive/negative counts onto a
row. -/
def mergeStats (stats : List ((String × String) × (Option Nat × Option Nat)))
    (r : ORow) : ORow :=
  match lookupKey (oKey r) stats with
  | none => r
  | some pn => { r with positive := pn.1, negative := pn.2 }

/-- Lines 164-167: the function re-reads the stored `sentiment` table,
concatenates it with itself and deduplicates by `url` keeping the first
occurrence. -/
def sentimentTableDedup (stored : List SRow) : List SRow :=
  dedupByKey SRow.url (stored ++ stored)

/-- Line 168: the rows with `sentiment` in {positive, negative}. -/
def binaryRows (stored : List SRow) : List SRow :=
  (sentimentTableDedup stored).filter fun s => binarySent s.sentiment

/-- The sentiment series of one (source, subject) group among the binary
rows: the votes entering the dominance computation. -/
def groupVotes (stored : List SRow) (k : String × String) : List String :=
  valuesAt (binaryRows stored) k

/-- Lines 170-177 applied to the whole deduplicated table. -/
def biasMerged (thr : ℚ) (stored : List SRow) : List ORow :=
  (sentimentTableDedup stored).map
    (mergeBias (groupby_mode thr (binaryRows stored)))

/-- Model of `build_inverse_bias(sentiment, upload)` (`ml.py` lines
160-192).  `stored` is the persisted `sentiment` table read on line 164;
the DataFrame argument passed by the pipeline is immediately overwritten
there and never used.  Lines 178-179 (`df_bias = sentiment.loc[...]`
followed by `df_bias = sentiment`) are dead code and leave no trace.
Line 186 (`dropna(subset=["positive", "negative"])`) is the `isSome`
filter; line 189 is the final deduplication by `url`.  The `astype`
conversions on lines 187-188 do not change values. -/
def build_inverse_bias (thr : ℚ) (stored _sentimentArg : List SRow) :
    List ORow :=
  dedupByKey ORow.url
    (((biasMerged thr stored).map
        (mergeStats (get_bias_stats (biasMerged thr stored)))).filter
      fun r => r.positive.isSome && r.negative.isSome)

theorem mergeStats_source (stats : List ((String × String) × (Option Nat × Option Nat)))
    (r : ORow) : (mergeStats stats r).source = r.source := by
  rw [mergeStats]
  cases lookupKey (oKey r) stats <;> rfl

theorem mergeStats_subject (stats : List ((String × String) × (Option Nat × Option Nat)))
    (r : ORow) : (mergeStats stats r).subject = r.subject := by
  rw [mergeStats]
  cases lookupKey (oKey r) stats <;> rfl

theorem mergeStats_bias (stats : List ((String × String) × (Option Nat × Option Nat)))
    (r : ORow) : (mergeStats stats r).bias = r.bias := by
  rw [mergeStats]
  cases lookupKey (oKey r) stats <;> rfl

theorem mergeStats_inverse_bias
    (stats : List ((String × String) × (Option Nat × Option Nat)))
    (r : ORow) : (mergeStats stats r).inverse_bias = r.inverse_bias := by
  rw [mergeStats]
  cases lookupKey (oKey r) stats <;> rfl

theorem mergeStats_of_lookup_none
    {stats : List ((String × String) × (Option Nat × Option Nat))} {r : ORow}
    (h : lookupKey (oKey r) stats = none) : mergeStats stats r = r := by
  rw [mergeStats, h]

theorem oKey_mergeStats (stats : List ((String × String) × (Option Nat × Option Nat)))
    (r : ORow) : oKey (mergeStats stats r) = oKey r := by
  rw [oKey, mergeStats_source, mergeStats_subject]
  rfl

theorem oKey_mergeBias (dfBias : List ((String × String) × String)) (s : SRow) :
    oKey (mergeBias dfBias s) = sKey s := rfl

/-- Every output row of `build_inverse_bias` is a deduplicated-table row
enriched by the two merges, and has survived the `dropna` on the count
columns. -/
theorem mem_build_inverse_bias {thr : ℚ} {stored arg : List SRow} {r : ORow}
    (h : r ∈ build_inverse_bias thr stored arg) :
    ∃ s ∈ sentimentTableDedup stored,
      r = mergeStats (get_bias_stats (biasMerged thr stored))
            (mergeBias (groupby_mode thr (binaryRows stored)) s) ∧
      r.positive.isSome = true ∧ r.negative.isSome = true := by
  rw [build_inverse_bias] at h
  have h1 := mem_of_mem_dedupByKey ORow.url _ r h
  have h2 := List.mem_filter.mp h1
  rcases List.mem_map.mp h2.1 with ⟨m, hm, hms⟩
  rcases List.mem_map.mp hm with ⟨s, hs, hsf⟩
  refine ⟨s, hs, ?_, ?_, ?_⟩
  · rw [← hms, ← hsf]
  · exact (Bool.and_eq_true _ _).mp h2.2 |>.1
  · exact (Bool.and_eq_true _ _).mp h2.2 |>.2

/-- The binary rows of the bias-merged frame carry the same keys as the
binary rows of the deduplicated table. -/
theorem biasMerged_binary_keys (thr : ℚ) (stored : List SRow) :
    ((biasMerged thr stored).filter fun r => binarySent r.sentiment).map oKey
      = (binaryRows stored).map sKey := by
  rw [biasMerged, List.filter_map, List.map_map]
  rfl

theorem groupVotes_eq_nil_iff (stored : List SRow) (k : String × String) :
    groupVotes stored k = [] ↔ k ∉ (binaryRows stored).map sKey := by
  rw [groupVotes, valuesAt, List.map_eq_nil_iff, List.filter_eq_nil_iff]
  constructor
  · intro h hk
    rcases List.mem_map.mp hk with ⟨s, hs, hsk⟩
    exact h s hs (by simp [hsk])
  · intro h s hs hsk
    exact h (List.mem_map.mpr ⟨s, hs, by simpa using hsk⟩)

theorem lookupKey_groupby_mode (thr : ℚ) (stored : List SRow)
    (k : String × String) (hne : groupVotes stored k ≠ []) :
    lookupKey k (groupby_mode thr (binaryRows stored)) =
      some (mode_func thr (groupVotes stored k)) := by
  rw [groupby_mode, lookupKey_map_keys]
  rw [if_pos]
  · rfl
  · rw [mem_dedupFirst]
    by_contra hk
    exact hne ((groupVotes_eq_nil_iff stored k).mpr hk)

theorem lookupKey_stats_none (thr : ℚ) (stored : List SRow)
    (k : String × String) (hnil : groupVotes stored k = []) :
    lookupKey k (get_bias_stats (biasMerged thr stored)) = none := by
  rw [get_bias_stats, lookupKey_map_keys, if_neg]
  rw [mem_dedupFirst, biasMerged_binary_keys]
  exact (groupVotes_eq_nil_iff stored k).mp hnil

/-- Lemma: `mode_func` yields the sentinel whenever the mode share is strictly
below the threshold. -/
theorem mode_func_below {thr : ℚ} {xs : List String}
    (hlt : mkRat (maxCount xs) xs.length < thr) : mode_func thr xs = "N/A" := by
  rw [mode_func]
  by_cases h : (modeList xs).isEmpty
  · rw [if_pos h]
  · rw [if_neg h, if_pos hlt]

theorem groupVotes_binary (stored : List SRow) (k : String × String) :
    ∀ v ∈ groupVotes stored k, v = "positive" ∨ v = "negative" := by
  intro v hv
  rcases List.mem_map.mp hv with ⟨s, hs, hsv⟩
  have := (List.mem_filter.mp (List.mem_filter.mp hs).1).2
  rw [binarySent, decide_eq_true_eq] at this
  exact hsv ▸ this

/-- C2: for every (source, subject) group whose majority sentiment share is
at or above the bias threshold, there is a single bias/inverse_bias pair,
with inverse_bias the structural opposite of bias (positive maps to
negative and conversely), and every output row of the group carries that
pair. -/
theorem build_inverse_bias_same_pair (thr : ℚ) (stored arg : List SRow)
    (k : String × String) (hne : groupVotes stored k ≠ [])
    (hth : ¬ mkRat (maxCount (groupVotes stored k))
        (groupVotes stored k).length < thr) :
    ∃ b ib : String,
      ((b = "positive" ∧ ib = "negative") ∨
        (b = "negative" ∧ ib = "positive")) ∧
      ∀ r ∈ build_inverse_bias thr stored arg, oKey r = k →
        r.bias = some b ∧ r.inverse_bias = some ib := by
  have hspec := mode_func_spec hne hth
  have hmain : ∀ r ∈ build_inverse_bias thr stored arg, oKey r = k →
      r.bias = some (mode_func thr (groupVotes stored k)) ∧
        r.inverse_bias = inverseMap (mode_func thr (groupVotes stored k)) := by
    intro r hr hk
    rcases mem_build_inverse_bias hr with ⟨s, _, hrEq, _, _⟩
    have hks : sKey s = k := by
      rw [← hk, hrEq, oKey_mergeStats, oKey_mergeBias]
    have hlk := lookupKey_groupby_mode thr stored k hne
    constructor
    · rw [hrEq, mergeStats_bias]
      show lookupKey (sKey s) (groupby_mode thr (binaryRows stored)) = _
      rw [hks, hlk]
    · rw [hrEq, mergeStats_inverse_bias]
      show (lookupKey (sKey s) (groupby_mode thr (binaryRows stored))).bind
        inverseMap = _
      rw [hks, hlk, Option.some_bind]
  rcases groupVotes_binary stored k _ hspec.1 with hpos | hneg
  · refine ⟨"positive", "negative", Or.inl ⟨rfl, rfl⟩, fun r hr hk => ?_⟩
    have := hmain r hr hk
    rw [hpos] at this
    exact ⟨this.1, by rw [this.2]; rfl⟩
  · refine ⟨"negative", "positive", Or.inr ⟨rfl, rfl⟩, fun r hr hk => ?_⟩
    have := hmain r hr hk
    rw [hneg] at this
    exact ⟨this.1, by rw [this.2]; rfl⟩

/-- C3: every output row whose (source, subject) group is non-empty but
whose majority share among the positive/negative votes is below the
threshold — including groups with no votes at all, i.e. all-neutral
groups — carries the sentinel "N/A" in both `bias` and `inverse_bias`,
never a missing value.  (Groups with no votes in fact contribute no output
rows at all, because the count merge leaves their count columns NaN and
`dropna` removes them.) -/
theorem build_inverse_bias_below_threshold (thr : ℚ) (stored arg : List SRow)
    (r : ORow) (hr : r ∈ build_inverse_bias thr stored arg)
    (hgrp : 1 ≤ ((sentimentTableDedup stored).filter
        fun s => sKey s = oKey r).length)
    (hbelow : groupVotes stored (oKey r) = [] ∨
      mkRat (maxCount (groupVotes stored (oKey r)))
        (groupVotes stored (oKey r)).length < thr) :
    r.bias = some "N/A" ∧ r.inverse_bias = some "N/A" := by
  rcases mem_build_inverse_bias hr with ⟨s, _, hrEq, hp, _⟩
  have hks : sKey s = oKey r := by
    rw [hrEq, oKey_mergeStats, oKey_mergeBias]
  by_cases hvn : groupVotes stored (oKey r) = []
  · exfalso
    have hmb : oKey (mergeBias (groupby_mode thr (binaryRows stored)) s) =
        oKey r := by rw [oKey_mergeBias, hks]
    have hnone : lookupKey
        (oKey (mergeBias (groupby_mode thr (binaryRows stored)) s))
        (get_bias_stats (biasMerged thr stored)) = none := by
      rw [hmb]
      exact lookupKey_stats_none thr stored (oKey r) hvn
    rw [hrEq, mergeStats_of_lookup_none hnone] at hp
    simp [mergeBias] at hp
  · have hlt := hbelow.resolve_left hvn
    have hlk := lookupKey_groupby_mode thr stored (oKey r) hvn
    have hNA := mode_func_below hlt
    constructor
    · rw [hrEq, mergeStats_bias]
      show lookupKey (sKey s) (groupby_mode thr (binaryRows stored)) = _
      rw [hks, hlk, hNA]
    · rw [hrEq, mergeStats_inverse_bias]
      show (lookupKey (sKey s) (groupby_mode thr (binaryRows stored))).bind
        inverseMap = _
      rw [hks, hlk, hNA]
      rfl

/-- Stored table with one group holding 2 positive, 1 negative and 1
neutral row: share 2/3, at the threshold. -/
def c2stored : List SRow :=
  [⟨"u1", "A", "X", "positive"⟩, ⟨"u2", "A", "X", "positive"⟩,
   ⟨"u3", "A", "X", "negative"⟩, ⟨"u4", "A", "X", "neutral"⟩]

theorem build_inverse_bias_same_pair_witness :
    ∃ b ib : String,
      ((b = "positive" ∧ ib = "negative") ∨
        (b = "negative" ∧ ib = "positive")) ∧
      ∀ r ∈ build_inverse_bias bias_threshold c2stored c2stored,
        oKey r = ("A", "X") → r.bias = some b ∧ r.inverse_bias = some ib :=
  build_inverse_bias_same_pair bias_threshold c2stored c2stored ("A", "X")
    (by decide) (by decide)

/-- Stored table with one group holding 1 positive and 1 negative row:
share 1/2, below the threshold 2/3. -/
def c3stored : List SRow :=
  [⟨"u1", "A", "X", "positive"⟩, ⟨"u2", "A", "X", "negative"⟩]

/-- The first output row produced by `build_inverse_bias` on `c3stored`. -/
def c3row : ORow :=
  ⟨"u1", "A", "X", "positive", some "N/A", some "N/A", some 1, some 1⟩

theorem build_inverse_bias_below_threshold_witness :
    c3row ∈ build_inverse_bias bias_threshold c3stored c3stored ∧
      c3row.bias = some "N/A" ∧ c3row.inverse_bias = some "N/A" :=
  ⟨by decide,
   build_inverse_bias_below_threshold bias_threshold c3stored c3stored c3row
     (by decide) (by decide) (Or.inr (by decide))⟩

/-- C9: build_inverse_bias ignores its sentiment DataFrame argument: with
the same persisted `sentiment` table it returns the same output whatever
DataFrame the previous pipeline stage passed in, because line 164
immediately rebinds the parameter to the stored table. -/
theorem build_inverse_bias_ignores_argument (thr : ℚ)
    (stored a b : List SRow) :
    build_inverse_bias thr stored a = build_inverse_bias thr stored b := rfl

/-! ### `process_sentiment` (`src/inversebias/ml.py`, lines 105-125) -/

/-- A row of the raw classifier output frame (`BiasInput`), restricted to
the columns `process_sentiment` touches; `url` is nullable because the
first cleanup step is `dropna(subset=["url"])`.  The pass-through columns
(`subject`, `publication_date`, `explanation`) are omitted. -/
structure BRow where
  url : Option String
  source : String
  title : String
  sentiment : String
  language : String
deriving DecidableEq, Repr

/-- Line 106: `data.dropna(subset=["url"])`. -/
def dropNullUrl (data : List BRow) : List BRow :=
  data.filter fun r => r.url.isSome

/-- Line 107: `data.drop_duplicates(subset=["url"], keep=False)` — keep
exactly the rows whose `url` occurs once. -/
def dropDupUrls (l : List BRow) : List BRow :=
  l.filter fun r => (l.filter fun y => y.url = r.url).length = 1

/-- Lines 108-120: lower-case the sentiment, keep configured categories,
keep the longest pipe-delimited title segment, strip the nytimes suffix,
trim the title. -/
def normalizeRows (cats : List String) (l : List BRow) : List BRow :=
  (((((l.map fun r => { r with sentiment := pyLower r.sentiment }).filter
        fun r => r.sentiment ∈ cats).map
      fun r => { r with title := pickLongest (pySplit "|" r.title) }).map
    fun r =>
      if r.source = "nytimes" then
        { r with title := (pySplit " - The New York Times" r.title).headD "" }
      else r).map
    fun r => { r with title := pyStrip r.title })

/-- Model of `process_sentiment(data)` (without the optional upload): the
cleanup chain of lines 106-122, ending with the language gate
`data.loc[data.language == "en"]` of line 121.  `reset_index` (line 122)
does not change the rows. -/
def process_sentiment (cats : List String) (data : List BRow) : List BRow :=
  (normalizeRows cats (dropDupUrls (dropNullUrl data))).filter
    fun r => r.language = "en"

/-- Number of rows of a frame carrying a given `url` value. -/
def urlCount (l : List BRow) (u : Option String) : Nat :=
  (l.filter fun r => r.url = u).length

theorem urlCount_map_eq (f : BRow → BRow) (hf : ∀ r, (f r).url = r.url)
    (l : List BRow) (u : Option String) :
    urlCount (l.map f) u = urlCount l u := by
  rw [urlCount, urlCount, List.filter_map, List.length_map]
  congr 1
  apply List.filter_congr
  intro a _
  simp [Function.comp, hf]

theorem urlCount_le_of_filter (p : BRow → Bool) (l : List BRow)
    (u : Option String) : urlCount (l.filter p) u ≤ urlCount l u :=
  List.Sublist.length_le (List.Sublist.filter _ (List.filter_sublist l))

theorem urlCount_normalize_le (cats : List String) (l : List BRow)
    (u : Option String) :
    urlCount (normalizeRows cats l) u ≤ urlCount l u := by
  rw [normalizeRows]
  rw [urlCount_map_eq (fun r => { r with title := pyStrip r.title })
    (fun r => rfl)]
  rw [urlCount_map_eq
    (fun r =>
      if r.source = "nytimes" then
        { r with title := (pySplit " - The New York Times" r.title).headD "" }
      else r)
    (fun r => by dsimp only; split <;> rfl)]
  rw [urlCount_map_eq
    (fun r => { r with title := pickLongest (pySplit "|" r.title) })
    (fun r => rfl)]
  exact le_trans (urlCount_le_of_filter _ _ u)
    (le_of_eq (urlCount_map_eq
      (fun r => { r with sentiment := pyLower r.sentiment })
      (fun r => rfl) l u))

theorem urlCount_dropDup_le_one (l : List BRow) (u : Option String) :
    urlCount (dropDupUrls l) u ≤ 1 := by
  rcases h : (dropDupUrls l).filter (fun r => r.url = u) with _ | ⟨x, rest⟩
  · rw [urlCount, h]
    simp
  · have hx : x ∈ (dropDupUrls l).filter fun r => r.url = u :=
      h ▸ List.mem_cons_self _ _
    have hx2 := List.mem_filter.mp hx
    have hxu : x.url = u := by simpa using hx2.2
    have hcount : (l.filter fun y => y.url = x.url).length = 1 := by
      simpa using (List.mem_filter.mp hx2.1).2
    have hsub : List.Sublist ((dropDupUrls l).filter fun r => r.url = u)
        (l.filter fun r => r.url = u) :=
      List.Sublist.filter _ (List.filter_sublist l)
    have hlen := List.Sublist.length_le hsub
    rw [hxu] at hcount
    rw [urlCount]
    exact le_trans hlen (le_of_eq hcount)

theorem exists_src_of_mem_normalize (cats : List String) (l : List BRow)
    (r : BRow) (h : r ∈ normalizeRows cats l) : ∃ x ∈ l, x.url = r.url := by
  have h1 : 1 ≤ urlCount (normalizeRows cats l) r.url := by
    have hm : r ∈ (normalizeRows cats l).filter fun y => y.url = r.url :=
      List.mem_filter.mpr ⟨h, by simp⟩
    exact List.length_pos.mpr (List.ne_nil_of_mem hm)
  have h3 : 1 ≤ urlCount l r.url :=
    le_trans h1 (urlCount_normalize_le cats l r.url)
  rw [urlCount] at h3
  have hne : (l.filter fun y => y.url = r.url) ≠ [] :=
    List.length_pos.mp (Nat.lt_of_lt_of_le Nat.zero_lt_one h3)
  rcases List.exists_mem_of_ne_nil _ hne with ⟨x, hx⟩
  have hx2 := List.mem_filter.mp hx
  exact ⟨x, hx2.1, by simpa using hx2.2⟩

theorem dropNullUrl_filter_some (data : List BRow) (u : String) :
    (dropNullUrl data).filter (fun y => y.url = some u)
      = data.filter fun y => y.url = some u := by
  rw [dropNullUrl, List.filter_filter]
  apply List.filter_congr
  intro a _
  by_cases h : a.url = some u <;> simp [h]

/-- C7: every row whose url occurs more than once in the raw classifier
output is dropped entirely by the cleanup (no occurrence survives, none is
preferred), and the cleaned output carries at most one row per url
value. -/
theorem process_sentiment_dup_urls_dropped (cats : List String)
    (data : List BRow) (u : String) (hdup : 1 < urlCount data (some u)) :
    (∀ r ∈ process_sentiment cats data, r.url ≠ some u) ∧
      ∀ v : Option String, urlCount (process_sentiment cats data) v ≤ 1 := by
  constructor
  · intro r hr hru
    rw [process_sentiment] at hr
    have hr1 : r ∈ normalizeRows cats (dropDupUrls (dropNullUrl data)) :=
      (List.mem_filter.mp hr).1
    rcases exists_src_of_mem_normalize _ _ _ hr1 with ⟨x, hx, hxu⟩
    have hxcount : ((dropNullUrl data).filter
        fun y => y.url = x.url).length = 1 := by
      simpa using (List.mem_filter.mp hx).2
    rw [hxu, hru, dropNullUrl_filter_some] at hxcount
    rw [urlCount] at hdup
    omega
  · intro v
    rw [process_sentiment]
    exact le_trans (urlCount_le_of_filter _ _ v)
      (le_trans (urlCount_normalize_le _ _ v) (urlCount_dropDup_le_one _ v))

/-- Raw classifier output where url "a" occurs twice (with different
sentiments) and url "b" once. -/
def c7data : List BRow :=
  [⟨some "a", "s", "T1", "positive", "en"⟩,
   ⟨some "a", "s", "T2", "negative", "en"⟩,
   ⟨some "b", "s", "T3", "positive", "en"⟩]

theorem process_sentiment_dup_urls_dropped_witness :
    (∀ r ∈ process_sentiment ["positive", "neutral", "negative"] c7data,
      r.url ≠ some "a") ∧
      ∀ v : Option String,
        urlCount (process_sentiment ["positive", "neutral", "negative"] c7data)
          v ≤ 1 :=
  process_sentiment_dup_urls_dropped ["positive", "neutral", "negative"]
    c7data "a" (by decide)

/-- C6 (amended): a row survives the sentiment-cleanup language gate
exactly when its language value EQUALS "en"; any other value — "fr" but
also "en-US" — is dropped regardless of its sentiment. -/
theorem process_sentiment_language_gate (cats : List String)
    (data : List BRow) (r : BRow) :
    r ∈ process_sentiment cats data ↔
      r ∈ normalizeRows cats (dropDupUrls (dropNullUrl data)) ∧
        r.language = "en" := by
  rw [process_sentiment, List.mem_filter]
  simp

/-- A fully valid row except that its language is the en-variant
"en-US". -/
def c6row : BRow := ⟨some "u", "s", "Title", "positive", "en-US"⟩

/-- C6 counterexample: the claim says a row with language "en-US" is kept
by the language gate; the code keeps only language == "en", so the row is
dropped and the cleanup output is empty. -/
theorem process_sentiment_enUS_dropped :
    c6row.language = "en-US" ∧ c6row.sentiment = "positive" ∧
      process_sentiment ["positive", "neutral", "negative"] [c6row] = [] :=
  ⟨rfl, rfl, by decide⟩

/-! ### `filter_subjects_of_interest` (`src/inversebias/ml.py`, lines
145-157) -/

/-- A row of the scraped-titles frame (`SitemapScrape`), restricted to the
columns the subject filter reads or carries. -/
structure Article where
  source : String
  url : String
  title : String
deriving DecidableEq, Repr

/-- Model of `filter_subjects_of_interest(df)` (without the upload
decorator): for each configured subject the inner loop rebinds
`subject_df` on every alias token, so only the LAST token's matches
survive; the subject column is then assigned and the block appended.  The
inner fold's initial value is irrelevant because `subject.split(" ")` is
never empty.  `str.contains` is used on plain word aliases, where the
pandas regex semantics coincide with substring containment. -/
def filter_subjects_of_interest (subjects : List String) (df : List Article) :
    List (Article × String) :=
  subjects.foldl
    (fun dfSubjects subject =>
      dfSubjects ++
        ((pySplit " " subject).foldl
          (fun _ tok =>
            df.filter fun a => containsSeq (pyLower a.title).data tok.data)
          df).map fun a => (a, subject))
    []

theorem foldl_const_last {σ τ : Type} (g : σ → τ) (l : List σ) (init : τ) :
    l.foldl (fun _ x => g x) init = (l.getLast?).elim init g := by
  induction l generalizing init with
  | nil => rfl
  | cons a t ih =>
    rw [List.foldl_cons, ih (g a)]
    cases t with
    | nil => rfl
    | cons b u =>
      rw [List.getLast?_cons_cons]
      cases h : (b :: u).getLast? with
      | none => exact absurd (List.getLast?_eq_none_iff.mp h) (by simp)
      | some m => rfl

theorem foldl_append_bind {σ τ : Type} (g : σ → List τ) (l : List σ)
    (acc : List τ) :
    l.foldl (fun acc0 s => acc0 ++ g s) acc = acc ++ l.flatMap g := by
  induction l generalizing acc with
  | nil => simp
  | cons a t ih =>
    rw [List.foldl_cons, ih, List.flatMap_cons, List.append_assoc]

/-- C4 (amended): the subject filter emits the pair (article, subject)
exactly when the article's lowercased title contains the LAST of the
subject's whitespace-separated alias tokens as a substring (the alias loop
overwrites earlier tokens' matches); articles matching no subject's last
token are silently dropped. -/
theorem filter_subjects_last_alias (subjects : List String) (df : List Article)
    (a : Article) (s al : String)
    (hal : (pySplit " " s).getLast? = some al) :
    (a, s) ∈ filter_subjects_of_interest subjects df ↔
      s ∈ subjects ∧ a ∈ df ∧
        containsSeq (pyLower a.title).data al.data = true := by
  rw [filter_subjects_of_interest, foldl_append_bind, List.nil_append,
    List.mem_flatMap]
  constructor
  · rintro ⟨s2, hs2, hmem⟩
    rcases List.mem_map.mp hmem with ⟨a2, ha2, heq⟩
    have ha : a2 = a := congrArg Prod.fst heq
    have hs : s2 = s := congrArg Prod.snd heq
    subst ha
    subst hs
    rw [foldl_const_last, hal] at ha2
    have h2 := List.mem_filter.mp ha2
    exact ⟨hs2, h2.1, h2.2⟩
  · rintro ⟨hs, ha, hc⟩
    refine ⟨s, hs, List.mem_map.mpr ⟨a, ?_, rfl⟩⟩
    rw [foldl_const_last, hal]
    exact List.mem_filter.mpr ⟨ha, hc⟩

/-- An article whose title contains the first alias token of the subject
"foo bar" but not the last. -/
def c4article : Article := ⟨"s", "u", "Foo news"⟩

/-- C4 counterexample: the claim says a row is emitted because the
lowercased title contains SOME alias token ("foo" ∈ tokens of "foo bar",
and "foo" occurs in "foo news"); the code keeps only the last token's
matches ("bar" does not occur), so the output is empty. -/
theorem filter_subjects_any_alias_cex :
    "foo" ∈ pySplit " " "foo bar" ∧
      containsSeq (pyLower c4article.title).data "foo".data = true ∧
      filter_subjects_of_interest ["foo bar"] [c4article] = [] :=
  ⟨by decide, by decide, by decide⟩

/-- An article whose title contains "beta", the last alias token of
"alpha beta". -/
def c4article2 : Article := ⟨"s", "u2", "Beta rising"⟩

theorem filter_subjects_last_alias_witness :
    (c4article2, "alpha beta") ∈
      filter_subjects_of_interest ["alpha beta"] [c4article2] :=
  (filter_subjects_last_alias ["alpha beta"] [c4article2] c4article2
    "alpha beta" "beta" (by decide)).mpr ⟨by decide, by decide, by decide⟩

/-! ### Persistence effects of the pipeline stages (`src/inversebias/ml.py`
lines 123-124 / 145 / 190-191 / 255 / 277-284, `src/inversebias/data/db.py`
lines 56-82) -/

/-- A write performed against the storage gateway: `table_upload`
(append-only by primary key) or `sql_replace_df` (full table replace). -/
inductive WriteOp where
  | upload (table : String)
  | replace (table : String)
deriving DecidableEq, Repr

/-- Writes of `filter_subjects_of_interest`: only the
`@upload_to_table("subject", "url")` decorator, which uploads exactly when
the `upload` keyword argument is true (`db.py` lines 68-77). -/
def filter_subjects_writes (upload : Bool) : List WriteOp :=
  if upload then [WriteOp.upload "subject"] else []

/-- Writes of `infer_sentiment` as a function of the persistence flag and
the number of rows left after `remove_already_inferred_sentiment`: with no
pending rows the body returns early (line 263-264) and only the
`@upload_to_table("sentiment", "url")` decorator can write; otherwise the
body ALWAYS calls `table_upload(..., table_name="unprocessed_sentiment")`
on lines 278-283, regardless of the flag, before the decorator's
flag-guarded upload. -/
def infer_sentiment_writes (upload : Bool) (pendingRows : Nat) :
    List WriteOp :=
  if pendingRows = 0 then (if upload then [WriteOp.upload "sentiment"] else [])
  else
    [WriteOp.upload "unprocessed_sentiment"] ++
      (if upload then [WriteOp.upload "sentiment"] else [])

/-- Writes of `build_inverse_bias`: `sql_replace_df` on the `inverse_bias`
table exactly when the flag is true (lines 190-191). -/
def build_inverse_bias_writes (upload : Bool) : List WriteOp :=
  if upload then [WriteOp.replace "inverse_bias"] else []

/-- The writes of the three pipeline stages named by the persistence claim
(subject filter, sentiment inference, bias aggregation), in program
order. -/
def pipeline_stage_writes (upload : Bool) (pendingRows : Nat) : List WriteOp :=
  filter_subjects_writes upload ++ infer_sentiment_writes upload pendingRows ++
    build_inverse_bias_writes upload

/-- C5 counterexample: with the persistence flag false and one pending row,
the stages still perform a write — the sentiment-inference stage uploads
the raw parsed results to the `unprocessed_sentiment` staging table
unconditionally. -/
theorem pipeline_writes_flag_false_cex :
    pipeline_stage_writes false 1 = [WriteOp.upload "unprocessed_sentiment"] ∧
      pipeline_stage_writes false 1 ≠ [] :=
  ⟨rfl, by decide⟩

/-- C5 (amended): with the persistence flag false, the subject filter and
the bias aggregation write nothing, and the sentiment-inference stage
writes nothing except the unconditional upload of raw parsed classifier
rows to the `unprocessed_sentiment` staging table, which it performs
whenever any unprocessed rows remain. -/
theorem pipeline_writes_flag_false (p : Nat) :
    filter_subjects_writes false = [] ∧
      build_inverse_bias_writes false = [] ∧
      infer_sentiment_writes false p =
        (if p = 0 then [] else [WriteOp.upload "unprocessed_sentiment"]) := by
  refine ⟨rfl, rfl, ?_⟩
  rw [infer_sentiment_writes]
  split <;> rfl

/-! ### `parse_markdown_table` (`src/inversebias/ml.py`, lines 209-243) -/

/-- The scraped-content record whose columns are copied onto every parsed
row (lines 234-239). -/
structure Scraped where
  source : String
  subject : String
  url : String
  publication_date : String
  language : String
  title : String
deriving DecidableEq, Repr

/-- A parsed classifier row.  `return df[cols]` on line 243 only selects
and orders columns; the `inferred_subject` column it drops is kept here as
a field, which no claim reads. -/
structure PRow where
  inferred_subject : String
  sentiment : String
  explanation : String
  source : String
  subject : String
  url : String
  publication_date : String
  language : String
  title : String
deriving DecidableEq, Repr

/-- One attempted match of the regex
`r"\|([^|]+)\|([^|]+)\|([^|]+)\|?"` at the head of the input: a literal
pipe, three non-empty pipe-free cells separated by pipes, and an optional
trailing pipe.  Greedy maximal munch is exact for this pattern because
`[^|]+` is always followed by a literal `|` or the end of the match.
Returns the three cell texts and the rest of the input after the match. -/
def matchAt : List Char → Option ((String × String × String) × List Char)
  | '|' :: rest =>
    if (rest.takeWhile fun c => c ≠ '|').isEmpty then none
    else
      match rest.dropWhile fun c => c ≠ '|' with
      | '|' :: rest2 =>
        if (rest2.takeWhile fun c => c ≠ '|').isEmpty then none
        else
          match rest2.dropWhile fun c => c ≠ '|' with
          | '|' :: rest3 =>
            if (rest3.takeWhile fun c => c ≠ '|').isEmpty then none
            else
              some ((⟨rest.takeWhile fun c => c ≠ '|'⟩,
                     ⟨rest2.takeWhile fun c => c ≠ '|'⟩,
                     ⟨rest3.takeWhile fun c => c ≠ '|'⟩),
                match rest3.dropWhile fun c => c ≠ '|' with
                | '|' :: r4 => r4
                | r3 => r3)
          | _ => none
      | _ => none
  | _ => none

/-- Model of `re.findall`: leftmost non-overlapping matches, scanning left to
right.  The fuel bounds the number of scanning steps; each step consumes at
least one character, so `length + 1` fuel never runs out. -/
def findTriplesLoop : Nat → List Char → List (String × String × String)
  | 0, _ => []
  | fuel + 1, s =>
    match s with
    | [] => []
    | c :: t =>
      match matchAt (c :: t) with
      | some (m, r) => m :: findTriplesLoop fuel r
      | none => findTriplesLoop fuel t

/-- Model of `re.findall(r"\|([^|]+)\|([^|]+)\|([^|]+)\|?", markdown_text)`
(line 220-221). -/
def findTriples (md : List Char) : List (String × String × String) :=
  findTriplesLoop (md.length + 1) md

/-- Lines 222-239: skip the first two matches (header and separator rows),
strip each captured cell, and attach the article's columns — in particular
the single article's `url` — to every parsed row. -/
def parsedRows (md : String) (art : Scraped) : List PRow :=
  ((findTriples md.data).drop 2).map fun m =>
    { inferred_subject := pyStrip m.1, sentiment := pyStrip m.2.1,
      explanation := pyStrip m.2.2, source := art.source,
      subject := art.subject, url := art.url,
      publication_date := art.publication_date, language := art.language,
      title := art.title }

/-- Model of `parse_markdown_table(markdown_text, scraped_content)`
(lines 209-243).  When no row was parsed the frame has no `explanation`
column and an empty frame is returned (lines 240-241); otherwise line 242
drops every row whose `url` occurs more than once
(`drop_duplicates(subset=["url"], keep=False)`). -/
def parse_markdown_table (md : String) (art : Scraped) : List PRow :=
  if (parsedRows md art).isEmpty then []
  else
    (parsedRows md art).filter fun r =>
      ((parsedRows md art).filter fun y => y.url = r.url).length = 1

/-- C10: the parser returns a non-empty result exactly when the classifier
response contains exactly one parsable data row after the two skipped
header rows (three regex matches in total); every parsed row carries the
single article's url, so the final no-copies duplicate-drop removes ALL
rows whenever two or more data rows were parsed, and a single data row
yields exactly one record. -/
theorem parse_markdown_table_single_row (md : String) (art : Scraped) :
    (parse_markdown_table md art ≠ [] ↔ (findTriples md.data).length = 3) ∧
      (∀ r ∈ parse_markdown_table md art, r.url = art.url) ∧
      ((findTriples md.data).length = 3 →
        (parse_markdown_table md art).length = 1) := by
  have hurl : ∀ r ∈ parsedRows md art, r.url = art.url := by
    intro r hr
    rcases List.mem_map.mp hr with ⟨m, _, hm⟩
    rw [← hm]
  have hlen : (parsedRows md art).length = (findTriples md.data).length - 2 := by
    rw [parsedRows, List.length_map, List.length_drop]
  have hurl2 : ∀ r ∈ parse_markdown_table md art, r.url = art.url := by
    intro r hr
    rw [parse_markdown_table] at hr
    by_cases hE : (parsedRows md art).isEmpty
    · rw [if_pos hE] at hr
      simp at hr
    · rw [if_neg hE] at hr
      exact hurl r (List.mem_filter.mp hr).1
  by_cases h2 : (findTriples md.data).length ≤ 2
  · have hnil : parsedRows md art = [] := by
      rw [parsedRows, List.drop_eq_nil_of_le h2, List.map_nil]
    have hp : parse_markdown_table md art = [] := by
      rw [parse_markdown_table, if_pos (by rw [hnil]; rfl)]
    refine ⟨?_, hurl2, ?_⟩
    · rw [hp]
      constructor
      · intro h
        exact absurd rfl h
      · intro h3
        omega
    · intro h3
      omega
  · push_neg at h2
    have hne : parsedRows md art ≠ [] := by
      intro hnil
      rw [hnil] at hlen
      simp only [List.length_nil] at hlen
      omega
    have hE : ¬ (parsedRows md art).isEmpty = true := by
      rw [List.isEmpty_iff]
      exact hne
    by_cases h3 : (findTriples md.data).length = 3
    · have h1 : (parsedRows md art).length = 1 := by omega
      rcases List.length_eq_one.mp h1 with ⟨x, hx⟩
      have hp : parse_markdown_table md art = [x] := by
        rw [parse_markdown_table, if_neg hE, hx]
        simp
      refine ⟨?_, hurl2, fun _ => by rw [hp]; rfl⟩
      rw [hp]
      constructor
      · intro _
        exact h3
      · intro _
        simp
    · have h4 : 2 ≤ (parsedRows md art).length := by omega
      have hall : ∀ r ∈ parsedRows md art,
          ((parsedRows md art).filter fun y => y.url = r.url) =
            parsedRows md art := by
        intro r hr
        apply List.filter_eq_self.mpr
        intro y hy
        simp [hurl y hy, hurl r hr]
      have hp : parse_markdown_table md art = [] := by
        rw [parse_markdown_table, if_neg hE]
        apply List.filter_eq_nil_iff.mpr
        intro r hr
        rw [hall r hr]
        simp only [decide_eq_true_eq]
        omega
      refine ⟨?_, hurl2, fun hc => absurd hc h3⟩
      rw [hp]
      constructor
      · intro h
        exact absurd rfl h
      · intro hc
        exact absurd hc h3

/-- A classifier response with a header row, a separator row and exactly
one data row. -/
def c10md : String :=
  "| subject | sentiment | explanation |\n|---|---|---|\n| X | positive | ok |"

/-- The article whose columns are attached to the parsed rows. -/
def c10art : Scraped := ⟨"src", "X", "http", "2024", "en", "T"⟩

theorem parse_markdown_table_single_row_witness :
    parse_markdown_table c10md c10art ≠ [] :=
  (parse_markdown_table_single_row c10md c10art).1.mpr (by decide)

/-! ### `table_upload` (`src/inversebias/data/db.py`, lines 168-191) -/

/-- Model of `table_upload(df, table_name, primary_key)`: the table state
is `none` when the table does not exist.  When it exists, rows whose
primary key is already present are filtered out; if nothing is left the
function returns without writing, otherwise the remaining rows
(deduplicated by key, keep-first) are appended.  When the table does not
exist it is created as the deduplicated frame (`sql_replace_df`). -/
def table_upload {α κ : Type} [DecidableEq κ] (key : α → κ) (df : List α) :
    Option (List α) → Option (List α)
  | some t =>
    if (df.filter fun r => key r ∉ t.map key).isEmpty then some t
    else some (t ++ dedupByKey key (df.filter fun r => key r ∉ t.map key))
  | none => some (dedupByKey key df)

/-- C8: uploading a frame into a table with distinct primary keys appends
exactly the rows whose key is absent (never touching existing rows), keeps
the keys distinct, and uploading the same frame a second time leaves the
table unchanged. -/
theorem table_upload_idempotent {α κ : Type} [DecidableEq κ] (key : α → κ)
    (df t : List α) (huniq : (t.map key).Nodup) :
    ∃ new : List α,
      table_upload key df (some t) = some (t ++ new) ∧
      table_upload key df (some (t ++ new)) = some (t ++ new) ∧
      (∀ r ∈ new, key r ∉ t.map key) ∧
      ((t ++ new).map key).Nodup := by
  by_cases hE : (df.filter fun r => key r ∉ t.map key).isEmpty
  · refine ⟨[], ?_, ?_, by simp, by simpa using huniq⟩
    · rw [List.append_nil]
      simp only [table_upload]
      rw [if_pos hE]
    · rw [List.append_nil]
      simp only [table_upload]
      rw [if_pos hE]
  · set toAdd := df.filter fun r => key r ∉ t.map key with htoAdd
    set new := dedupByKey key toAdd with hnew
    have hnewMem : ∀ r ∈ new, r ∈ toAdd := fun r hr =>
      mem_of_mem_dedupByKey key toAdd r hr
    have hnewNotIn : ∀ r ∈ new, key r ∉ t.map key := by
      intro r hr
      have h2 := List.mem_filter.mp (hnewMem r hr)
      simpa using h2.2
    have hfirst : table_upload key df (some t) = some (t ++ new) := by
      simp only [table_upload]
      rw [if_neg hE]
    have hkeys2 : ∀ r ∈ df, key r ∈ (t ++ new).map key := by
      intro r hr
      rw [List.map_append]
      by_cases hk : key r ∈ t.map key
      · exact List.mem_append_left _ hk
      · have hrA : r ∈ toAdd := List.mem_filter.mpr ⟨hr, by simpa using hk⟩
        exact List.mem_append_right _
          (key_mem_dedupByKey key toAdd _ (List.mem_map_of_mem key hrA))
    have hsecond : table_upload key df (some (t ++ new)) = some (t ++ new) := by
      simp only [table_upload]
      rw [if_pos]
      rw [List.isEmpty_iff]
      apply List.filter_eq_nil_iff.mpr
      intro a ha
      simp only [decide_eq_true_eq, Decidable.not_not]
      exact hkeys2 a ha
    have hnodup : ((t ++ new).map key).Nodup := by
      rw [List.map_append, List.nodup_append]
      refine ⟨huniq, dedupByKey_keys_nodup key toAdd, ?_⟩
      intro a hat han
      rcases List.mem_map.mp han with ⟨r, hr, hrk⟩
      exact hnewNotIn r hr (hrk ▸ hat)
    exact ⟨new, hfirst, hsecond, hnewNotIn, hnodup⟩

theorem table_upload_idempotent_witness :
    ∃ new : List (Nat × String),
      table_upload Prod.fst [(1, "x"), (2, "y"), (2, "z")] (some [(1, "a")]) =
        some ([(1, "a")] ++ new) ∧
      table_upload Prod.fst [(1, "x"), (2, "y"), (2, "z")]
          (some ([(1, "a")] ++ new)) = some ([(1, "a")] ++ new) ∧
      (∀ r ∈ new, r.1 ∉ [(1, "a")].map Prod.fst) ∧
      (([(1, "a")] ++ new).map Prod.fst).Nodup :=
  table_upload_idempotent Prod.fst [(1, "x"), (2, "y"), (2, "z")] [(1, "a")]
    (by decide)

end InverseBias
